import Mathlib

/-!
Verification of the lyrics-to-timestamp alignment engine
(`backend/lyrics_video_app.py`).

Python strings are modelled as lists of characters (`Str`), times and
similarity scores as rationals, and the NumPy `inf` entries of the DTW
table as `WithTop ℚ`.  Each definition mirrors the corresponding Python
function; dictionaries with optional keys become structures with
`Option` fields.
-/

set_option maxRecDepth 10000

/-- Python `str` is modelled as a list of characters. -/
abbrev Str := List Char

/-- Whitespace test used by `str.strip`, `str.split` and the regex class `\s`. -/
def isSpace (c : Char) : Bool := c.isWhitespace

/-- Membership in the regex class `\w` (ASCII reading): letters, digits, underscore. -/
def isWordChar (c : Char) : Bool := c.isAlphanum || c == '_'

/-- Python `str.strip()`: drop leading whitespace, then trailing whitespace. -/
def pyStrip (s : Str) : Str :=
  (s.dropWhile isSpace).rdropWhile isSpace

/-- Python `str.split()` with no separator: split on runs of whitespace,
discarding empty tokens. -/
def pySplit : Str → List Str
  | [] => []
  | c :: cs =>
    if isSpace c then pySplit cs
    else
      (c :: cs.takeWhile (fun d => !isSpace d)) ::
        pySplit (cs.dropWhile (fun d => !isSpace d))
termination_by s => s.length
decreasing_by
  · simp
  · have := (List.dropWhile_suffix (l := cs) (fun d => !isSpace d)).sublist.length_le
    simp; omega

/-- Python `str.startswith` for a single-character pattern. -/
def startsWithChar (c : Char) : Str → Bool
  | [] => false
  | d :: _ => d == c

/-- The Soundex digit assigned to an (upper-case) character; `'0'` stands for
vowels, mute letters and anything outside A–Z, exactly as `mapping.get(ch, '0')`. -/
def soundexMap (c : Char) : Char :=
  if c == 'B' || c == 'F' || c == 'P' || c == 'V' then '1'
  else if c == 'C' || c == 'G' || c == 'J' || c == 'K' || c == 'Q' || c == 'S'
      || c == 'X' || c == 'Z' then '2'
  else if c == 'D' || c == 'T' then '3'
  else if c == 'L' then '4'
  else if c == 'M' || c == 'N' then '5'
  else if c == 'R' then '6'
  else '0'

/-- The loop of `soundex`: emit a digit when it is neither `'0'` nor equal to the
previous code; the previous code is updated unconditionally. -/
def soundexLoop : Char → List Char → List Char
  | _, [] => []
  | prev, c :: cs =>
    let code := soundexMap c
    if code ≠ '0' ∧ code ≠ prev then code :: soundexLoop code cs
    else soundexLoop code cs

/-- Embedding of `soundex(word)`. -/
def soundex (word : Str) : Str :=
  match word.map Char.toUpper with
  | [] => []
  | f :: rest => ((f :: soundexLoop (soundexMap f) rest) ++ ['0', '0', '0']).take 4

/-- One row update of the Levenshtein dynamic program (the inner `for j` loop). -/
def levStep (s2 : Str) (prevRow : List ℕ) (i : ℕ) (c1 : Char) : List ℕ :=
  s2.enum.foldl
    (fun curr jc =>
      let ins := prevRow.getD (jc.1 + 1) 0 + 1
      let del := curr.getLastD 0 + 1
      let sub := prevRow.getD jc.1 0 + (if c1 = jc.2 then 0 else 1)
      curr ++ [min ins (min del sub)])
    [i + 1]

/-- The row-based Levenshtein computation run when `len(s1) ≥ len(s2) > 0`. -/
def levCore (s1 s2 : Str) : ℕ :=
  (s1.enum.foldl (fun prev ic => levStep s2 prev ic.1 ic.2)
    (List.range (s2.length + 1))).getLastD 0

/-- Body of `levenshtein_distance` after the argument swap has been settled. -/
def levGo (s1 s2 : Str) : ℕ :=
  if s2.length = 0 then s1.length else levCore s1 s2

/-- Embedding of `levenshtein_distance(s1, s2)`; the recursive swap in the
source runs at most once, so it is unfolded into a single conditional. -/
def levenshtein_distance (s1 s2 : Str) : ℕ :=
  if s1.length < s2.length then levGo s2 s1 else levGo s1 s2

/-- Normalization applied by `word_similarity`: lower-case, then strip every
character outside `\w`. -/
def normalizeWord (w : Str) : Str :=
  (w.map Char.toLower).filter isWordChar

/-- Python substring containment `a in b` (contiguous occurrence). -/
def isSubstringOf (a b : Str) : Bool :=
  (List.range (b.length + 1)).any (fun i => (b.drop i).take a.length == a)

/-- Embedding of `word_similarity(word1, word2)`. -/
def word_similarity (word1 word2 : Str) : ℚ :=
  if word1 = [] ∨ word2 = [] then 0
  else
    let w1 := normalizeWord word1
    let w2 := normalizeWord word2
    if w1 = [] ∨ w2 = [] then 0
    else if w1 = w2 then 1
    else if isSubstringOf w1 w2 || isSubstringOf w2 w1 then 9/10
    else if 2 ≤ w1.length ∧ 2 ≤ w2.length ∧ soundex w1 = soundex w2 then 17/20
    else
      let maxLen : ℕ := max w1.length w2.length
      let lev : ℚ := 1 - (levenshtein_distance w1 w2 : ℚ) / (maxLen : ℚ)
      if 3 ≤ w1.length ∧ 3 ≤ w2.length ∧ w1.take 3 = w2.take 3 then max (7/10) lev
      else lev

/-- A transcribed word as assembled in `align_lyrics`: the dict
`{'word': ..., 'start': ..., 'end': ..., 'score': ...}` with all keys present. -/
structure TransWord where
  word : Str
  start : ℚ
  end_ : ℚ
  score : ℚ
deriving DecidableEq, Repr, Inhabited

/-- Similarity matrix entry `sim_matrix[i, j]` of `dtw_align`. -/
def simMatrix (lyrics_words : List Str) (transcribed_words : List TransWord)
    (i j : ℕ) : ℚ :=
  word_similarity (lyrics_words.getD i []) (transcribed_words.getD j default).word

/-- The three DTW moves; the stored value plays the role of `path[i, j]`. -/
inductive DtwMove
  | diag
  | skipLyric
  | skipTrans
deriving DecidableEq, Repr

/-- Python's `min(candidates, key=...)` over the three DTW candidates: the first
candidate with the strictly smallest cost wins, in the order diagonal,
skip-lyrics (+0.5), skip-transcribed (+0.3). -/
def dtwPick (d u l : WithTop ℚ) : WithTop ℚ × DtwMove :=
  let b1 : WithTop ℚ × DtwMove := (d, DtwMove.diag)
  let b2 := if u < b1.1 then (u, DtwMove.skipLyric) else b1
  if l < b2.1 then (l, DtwMove.skipTrans) else b2

/-- The DTW table of `dtw_align`: cost (`np.inf` embedded as `⊤`) together with
the recorded best-predecessor move. Cells with `i = 0` or `j = 0` other than
the origin keep cost `⊤`, exactly as `np.full(..., np.inf)` with `dtw[0,0] = 0`. -/
def dtwCell (lyrics_words : List Str) (transcribed_words : List TransWord) :
    ℕ → ℕ → WithTop ℚ × DtwMove
  | 0, 0 => (0, DtwMove.diag)
  | 0, _ + 1 => (⊤, DtwMove.diag)
  | _ + 1, 0 => (⊤, DtwMove.diag)
  | i + 1, j + 1 =>
    let c : ℚ := 1 - simMatrix lyrics_words transcribed_words i j
    dtwPick
      ((dtwCell lyrics_words transcribed_words i j).1 + (c : WithTop ℚ))
      ((dtwCell lyrics_words transcribed_words i (j + 1)).1 + ((1/2 : ℚ) : WithTop ℚ))
      ((dtwCell lyrics_words transcribed_words (i + 1) j).1 + ((3/10 : ℚ) : WithTop ℚ))
termination_by i j => (i, j)

/-- The coordinates `path[i, j]` recorded by `dtw_align` (the array is
zero-initialised, so cells on the border read `(0, 0)`). -/
def dtwPath (lyrics_words : List Str) (transcribed_words : List TransWord)
    (i j : ℕ) : ℕ × ℕ :=
  match i, j with
  | i + 1, j + 1 =>
    match (dtwCell lyrics_words transcribed_words (i + 1) (j + 1)).2 with
    | DtwMove.diag => (i, j)
    | DtwMove.skipLyric => (i, j + 1)
    | DtwMove.skipTrans => (i + 1, j)
  | _, _ => (0, 0)

/-- The backtracking `while i > 0 and j > 0` loop of `dtw_align`, with explicit
fuel; each step strictly decreases `i + j`, so fuel `n + m` never runs out. -/
def dtwBacktrack (lyrics_words : List Str) (transcribed_words : List TransWord)
    (similarity_threshold : ℚ) : ℕ → ℕ → ℕ → List (ℕ × ℕ × ℚ)
  | 0, _, _ => []
  | fuel + 1, i, j =>
    if i = 0 ∨ j = 0 then []
    else
      let p := dtwPath lyrics_words transcribed_words i j
      let rest := dtwBacktrack lyrics_words transcribed_words similarity_threshold fuel p.1 p.2
      if p.1 = i - 1 ∧ p.2 = j - 1 then
        let sim := simMatrix lyrics_words transcribed_words (i - 1) (j - 1)
        if similarity_threshold ≤ sim then (i - 1, j - 1, sim) :: rest else rest
      else rest

/-- Default value of the `similarity_threshold` parameter of `dtw_align`
(`0.5` in the source signature). -/
def dtw_align_default_threshold : ℚ := 1/2

/-- Embedding of `dtw_align(lyrics_words, transcribed_words, similarity_threshold)`.
The Python loop appends matches while walking from `(n, m)` back to the origin
and reverses the list at the end. -/
def dtw_align (lyrics_words : List Str) (transcribed_words : List TransWord)
    (similarity_threshold : ℚ := dtw_align_default_threshold) : List (ℕ × ℕ × ℚ) :=
  let n := lyrics_words.length
  let m := transcribed_words.length
  if n = 0 ∨ m = 0 then []
  else
    (dtwBacktrack lyrics_words transcribed_words similarity_threshold (n + m) n m).reverse

/-- A word entry of a WhisperX segment; `start`, `end` and `score` may be
absent from the dict, hence the `Option` fields. -/
structure WordInfo where
  word : Str
  start : Option ℚ
  end_ : Option ℚ
  score : Option ℚ
deriving DecidableEq, Repr, Inhabited

/-- A WhisperX segment: text plus time bounds and its word dicts. -/
structure Segment where
  text : Str
  start : ℚ
  end_ : ℚ
  words : List WordInfo
deriving DecidableEq, Repr, Inhabited

/-- The word set `set(re.sub(r'[^\w\s]', '', text.lower()).split())` used for
the Jaccard similarity in `segment_based_alignment`. -/
def textWordSet (s : Str) : Finset Str :=
  (pySplit ((s.map Char.toLower).filter (fun c => isWordChar c || isSpace c))).toFinset

/-- Jaccard word-overlap similarity between a lyric line and a segment text;
`0` when either word set is empty (the matrix entry keeps its `np.zeros`
initialisation in that case). -/
def jaccardSim (line segText : Str) : ℚ :=
  let line_words := textWordSet line
  let seg_words := textWordSet segText
  if line_words ≠ ∅ ∧ seg_words ≠ ∅ then
    let intersection := (line_words ∩ seg_words).card
    let union := (line_words ∪ seg_words).card
    if 0 < union then (intersection : ℚ) / (union : ℚ) else 0
  else 0

/-- Candidate segment indices visited by the window search, in visit order:
`expected ± offset` for `offset = 0 .. search_range` (as Python ints, so
possibly negative). -/
def segCandidates (expected search_range : ℕ) : List ℤ :=
  (List.range (search_range + 1)).flatMap
    (fun off => [(expected : ℤ) + off, (expected : ℤ) - off])

/-- The best-candidate scan of `segment_based_alignment`: skip out-of-range or
used indices, score the rest as `0.7·similarity + 0.3·position_bonus`, keep the
first strict maximum (initial best score `-1`, no segment). -/
def segScanBest (simRow : ℕ → ℚ) (m : ℕ) (expected : ℕ) (used : List ℕ)
    (cands : List ℤ) : ℚ × Option ℕ :=
  cands.foldl
    (fun best jz =>
      if 0 ≤ jz ∧ jz < (m : ℤ) then
        let j := jz.toNat
        if used.contains j then best
        else
          let position_bonus : ℚ := 1 - |(j : ℚ) - (expected : ℚ)| / (m : ℚ)
          let score := simRow j * (7/10) + position_bonus * (3/10)
          if best.1 < score then (score, some j) else best
      else best)
    (-1, none)

/-- State of the line loop in `segment_based_alignment`. -/
structure SegAlignState where
  timings : List (ℕ × ℚ × ℚ)
  used : List ℕ
deriving DecidableEq, Repr

/-- One iteration of the `for i in range(n_lines)` loop of
`segment_based_alignment`: assign the best unused segment if its score exceeds
`0.2`, otherwise interpolate from the previous anchor (or distribute evenly
when there is none). -/
def segLineStep (lyrics_lines : List Str) (segments : List Segment)
    (audio_duration : ℚ) (st : SegAlignState) (i : ℕ) : SegAlignState :=
  let n := lyrics_lines.length
  let m := segments.length
  let expected := (i * m) / n
  let search_range := max 3 (m / 4)
  let simRow := fun j => jaccardSim (lyrics_lines.getD i []) (segments.getD j default).text
  let best := segScanBest simRow m expected st.used (segCandidates expected search_range)
  let interp : SegAlignState :=
    match st.timings.getLast? with
    | some t =>
      let prev_end := t.2.2
      let gap := (audio_duration - prev_end) / ((n - i : ℕ) : ℚ)
      { st with timings := st.timings ++ [(i, prev_end, prev_end + gap)] }
    | none =>
      let gap := audio_duration / (n : ℚ)
      { st with timings := st.timings ++ [(i, (i : ℚ) * gap, ((i : ℚ) + 1) * gap)] }
  match best.2 with
  | some j =>
    if 1/5 < best.1 then
      let seg := segments.getD j default
      { timings := st.timings ++ [(i, seg.start, seg.end_)], used := st.used ++ [j] }
    else interp
  | none => interp

/-- Embedding of `segment_based_alignment(lyrics_lines, segments, audio_duration)`. -/
def segment_based_alignment (lyrics_lines : List Str) (segments : List Segment)
    (audio_duration : ℚ) : List (ℕ × ℚ × ℚ) :=
  if segments.isEmpty then
    let line_duration := audio_duration / ((max lyrics_lines.length 1 : ℕ) : ℚ)
    (List.range lyrics_lines.length).map
      (fun i => (i, (i : ℚ) * line_duration, ((i : ℚ) + 1) * line_duration))
  else
    ((List.range lyrics_lines.length).foldl
      (segLineStep lyrics_lines segments audio_duration) ⟨[], []⟩).timings

/-- The dataclass `TimedWord`; the Python field `end` is called `end_` here. -/
structure TimedWord where
  word : Str
  start : ℚ
  end_ : ℚ
  confidence : ℚ
deriving DecidableEq, Repr

instance : Inhabited TimedWord := ⟨⟨[], 0, 0, 0⟩⟩

/-- The dataclass `TimedLine`. -/
structure TimedLine where
  text : Str
  start : ℚ
  end_ : ℚ
  words : List TimedWord
deriving DecidableEq, Repr

instance : Inhabited TimedLine := ⟨⟨[], 0, 0, []⟩⟩

/-- The dataclass `LyricsTimingData`. -/
structure LyricsTimingData where
  title : Str
  duration : ℚ
  lines : List TimedLine
deriving DecidableEq, Repr

/-- The broken-line test of `_post_process_timing`: with
`expected = n·(0.35 + 0.08)`, the line is broken when
`last_end - first_start > min(2·expected, 8)` (the source phrases the bound as
`max_reasonable_end - first_word_start`, which is the same quantity). -/
def lineSeemsBroken (line : TimedLine) : Bool :=
  match line.words with
  | [] => false
  | w0 :: _ =>
    let first_word_start := w0.start
    let num_words := line.words.length
    let expected_line_duration := (num_words : ℚ) * (7/20 + 2/25)
    let last_word_end := (line.words.getLastD default).end_
    decide (min (expected_line_duration * 2) 8 < last_word_end - first_word_start)

/-- The broken-line branch of `_post_process_timing`: re-estimate every word
from the running clock `current_time`, giving each word duration `0.35`, gap
`0.08`, and confidence capped at `0.4`. -/
def reestimateWords (current_time : ℚ) : List TimedWord → List TimedWord
  | [] => []
  | w :: ws =>
    let w' : TimedWord :=
      ⟨w.word, current_time, current_time + 7/20, min w.confidence (2/5)⟩
    w' :: reestimateWords (w'.end_ + 2/25) ws

/-- The loop body of the light-cleanup branch of `_post_process_timing` for a
single word: clamp into `[0, duration]` (starts additionally to
`duration - 0.1`), push a start that precedes the previous end forward by
`0.02`, cap word duration at `1.5` (resetting to `0.4`), and force
`end > start` (minimum `0.2`). `word_prev_end` is the previous word's final
end, `none` for the first word. -/
def cleanupStep (duration : ℚ) (word_prev_end : Option ℚ) (w : TimedWord) :
    TimedWord :=
  let s1 := max 0 (min w.start (duration - 1/10))
  let e1 := max 0 (min w.end_ duration)
  let s2 :=
    match word_prev_end with
    | some pe => if s1 < pe then pe + 1/50 else s1
    | none => s1
  let e2 := if 3/2 < e1 - s2 then s2 + 2/5 else e1
  let e3 := if e2 ≤ s2 then s2 + 1/5 else e2
  ⟨w.word, s2, e3, w.confidence⟩

/-- The light-cleanup branch of `_post_process_timing`: apply `cleanupStep` to
each word in order, threading the previous word's final end. -/
def cleanupWords (duration : ℚ) : Option ℚ → List TimedWord → List TimedWord
  | _, [] => []
  | word_prev_end, w :: ws =>
    let w' := cleanupStep duration word_prev_end w
    w' :: cleanupWords duration (some w'.end_) ws

/-- Per-line body of `_post_process_timing`: lines without words are skipped
(`continue`), otherwise the words are repaired and the line's `start`/`end`
are recomputed from the first/last repaired word. -/
def processLine (duration : ℚ) (line : TimedLine) : TimedLine :=
  match line.words with
  | [] => line
  | w0 :: _ =>
    let ws :=
      if lineSeemsBroken line then reestimateWords w0.start line.words
      else cleanupWords duration none line.words
    ⟨line.text, (ws.headD default).start, (ws.getLastD default).end_, ws⟩

/-- Embedding of `LyricsAligner._post_process_timing(timed_lines, duration)`:
every line is repaired independently. -/
def _post_process_timing (timed_lines : List TimedLine) (duration : ℚ) :
    List TimedLine :=
  timed_lines.map (processLine duration)

/-- Stability check for the repaired output: every repaired word's start lies
in `[0, duration - 0.1]` and its end does not exceed `duration` (so the clamp
is a no-op on a second pass), and no repaired line is classified broken on
re-examination. Under this condition the repair pass is a fixed point. -/
def postRepairStable (lines : List TimedLine) (duration : ℚ) : Bool :=
  (_post_process_timing lines duration).all (fun l =>
    l.words.all (fun w =>
      decide (0 ≤ w.start) && decide (w.start ≤ duration - 1/10) &&
        decide (w.end_ ≤ duration)) &&
    !lineSeemsBroken l)

/-- The word extraction of `align_lyrics`: every segment word that has both a
`start` and an `end` key becomes a transcribed word, its text stripped and its
score defaulting to `1.0`. -/
def transcribedWords (segments : List Segment) : List TransWord :=
  segments.flatMap (fun seg =>
    seg.words.filterMap (fun wi =>
      match wi.start, wi.end_ with
      | some s, some e => some ⟨pyStrip wi.word, s, e, wi.score.getD 1⟩
      | _, _ => none))

/-- The lyrics parsing of `align_lyrics`: strip the whole text, split on
newlines, strip each line, keep non-empty lines not starting with `'['`. -/
def lyricsLines (lyrics_text : Str) : List Str :=
  (((pyStrip lyrics_text).splitOn '\n').map pyStrip).filter
    (fun l => !l.isEmpty && !startsWithChar '[' l)

/-- The flattened list `all_lyrics_words` of `align_lyrics`. -/
def allLyricsWords (lyrics_lines : List Str) : List Str :=
  lyrics_lines.flatMap pySplit

/-- The list `word_to_line_map` of `align_lyrics`: the flattened word index
maps to `(line_idx, word_idx_in_line)`. -/
def wordToLineMap (lyrics_lines : List Str) : List (ℕ × ℕ) :=
  lyrics_lines.enum.flatMap (fun p =>
    (List.range (pySplit p.2).length).map (fun word_idx => (p.1, word_idx)))

/-- The dict `word_timing_map` of `align_lyrics` as an association list keyed
by `(line_idx, word_idx)`; values are `(start, end, confidence)` with
confidence `similarity × score`. -/
def wordTimingEntries (lyrics_lines : List Str) (transcribed_words : List TransWord) :
    List ((ℕ × ℕ) × (ℚ × ℚ × ℚ)) :=
  (dtw_align (allLyricsWords lyrics_lines) transcribed_words (2/5)).map
    (fun a =>
      let key := (wordToLineMap lyrics_lines).getD a.1 (0, 0)
      let tw := transcribed_words.getD a.2.1 default
      (key, (tw.start, tw.end_, a.2.2 * tw.score)))

/-- Dict lookup with Python's last-write-wins semantics. -/
def lookupLast (entries : List ((ℕ × ℕ) × (ℚ × ℚ × ℚ))) (key : ℕ × ℕ) :
    Option (ℚ × ℚ × ℚ) :=
  (entries.reverse.find? (fun e => e.1 == key)).map (fun e => e.2)

/-- The inner word loop of `align_lyrics` STEP 4: each lyric word becomes a
`TimedWord`, using the DTW timing when present and interpolating inside the
line anchor otherwise (`word_prev_end` is the previous built word's end). -/
def buildWords (lookup : ℕ × ℕ → Option (ℚ × ℚ × ℚ)) (anchor_start anchor_end : ℚ)
    (total : ℕ) (line_idx : ℕ) :
    ℕ → Option ℚ → List Str → List TimedWord
  | _, _, [] => []
  | word_idx, word_prev_end, w :: ws =>
    let tw : TimedWord :=
      match lookup (line_idx, word_idx) with
      | some t => ⟨w, t.1, t.2.1, t.2.2⟩
      | none =>
        let word_progress : ℚ := (word_idx : ℚ) / ((max total 1 : ℕ) : ℚ)
        let est0 := anchor_start + (anchor_end - anchor_start) * word_progress
        let est_start :=
          match word_prev_end with
          | some pe => max est0 (pe + 1/20)
          | none => est0
        ⟨w, est_start, est_start + 1/4, 3/10⟩
    tw :: buildWords lookup anchor_start anchor_end total line_idx
      (word_idx + 1) (some tw.end_) ws

/-- The outer line loop of `align_lyrics` STEP 4 over the enumerated lyric
lines: fetch the anchor (falling back to an even split of the audio), build
the timed words, and append a `TimedLine` when any words were produced. -/
def buildTimedLines (lookup : ℕ × ℕ → Option (ℚ × ℚ × ℚ))
    (line_timings : List (ℕ × ℚ × ℚ)) (lines_count : ℕ) (audio_duration : ℚ) :
    List (ℕ × Str) → List TimedLine
  | [] => []
  | p :: rest =>
    let line_idx := p.1
    let line := p.2
    let line_words := pySplit line
    let anchor := line_timings.find? (fun t => t.1 == line_idx)
    let anchor_start :=
      match anchor with
      | some t => t.2.1
      | none => ((line_idx : ℚ) / (lines_count : ℚ)) * audio_duration
    let anchor_end :=
      match anchor with
      | some t => t.2.2
      | none => (((line_idx : ℚ) + 1) / (lines_count : ℚ)) * audio_duration
    let ws := buildWords lookup anchor_start anchor_end line_words.length line_idx
      0 none line_words
    (if ws.isEmpty then []
     else [⟨line, (ws.headD default).start, (ws.getLastD default).end_, ws⟩]) ++
      buildTimedLines lookup line_timings lines_count audio_duration rest

/-- Embedding of `LyricsAligner.align_lyrics`, as a function of the lyrics
text, the recognizer result (`segments`) and the audio duration: STEP 1 line
anchoring, STEP 2 flattening, STEP 3 DTW with threshold `0.4`, STEP 4 timed
line construction, STEP 5 repair pass. -/
def align_lyrics (lyrics_text : Str) (segments : List Segment)
    (audio_duration : ℚ) (title : Str := "Untitled".toList) : LyricsTimingData :=
  let transcribed_words := transcribedWords segments
  let lyrics_lines := lyricsLines lyrics_text
  let line_timings := segment_based_alignment lyrics_lines segments audio_duration
  let entries := wordTimingEntries lyrics_lines transcribed_words
  let timed_lines := buildTimedLines (lookupLast entries) line_timings
    lyrics_lines.length audio_duration lyrics_lines.enum
  let timed_lines := _post_process_timing timed_lines audio_duration
  ⟨title, audio_duration, timed_lines⟩

/-! Lemmas about the DTW backtracking -/

theorem dtwPath_fst_le (L : List Str) (T : List TransWord) (i j : ℕ) :
    (dtwPath L T i j).1 ≤ i ∧ (dtwPath L T i j).2 ≤ j := by
  match i, j with
  | 0, j => simp [dtwPath]
  | i + 1, 0 => simp [dtwPath]
  | i + 1, j + 1 =>
    simp only [dtwPath]
    cases (dtwCell L T (i + 1) (j + 1)).2 <;> simp

theorem dtwBacktrack_lt (L : List Str) (T : List TransWord) (θ : ℚ) :
    ∀ fuel i j, ∀ e ∈ dtwBacktrack L T θ fuel i j, e.1 < i ∧ e.2.1 < j := by
  intro fuel
  induction fuel with
  | zero => intro i j e he; simp [dtwBacktrack] at he
  | succ fuel ih =>
    intro i j e he
    simp only [dtwBacktrack] at he
    split at he
    · simp at he
    · rename_i h0
      push_neg at h0
      have hi : 1 ≤ i := Nat.one_le_iff_ne_zero.mpr h0.1
      have hj : 1 ≤ j := Nat.one_le_iff_ne_zero.mpr h0.2
      have hple := dtwPath_fst_le L T i j
      split at he
      · split at he
        · rcases List.mem_cons.mp he with rfl | he'
          · exact ⟨Nat.sub_lt hi Nat.one_pos, Nat.sub_lt hj Nat.one_pos⟩
          · have := ih _ _ e he'
            exact ⟨lt_of_lt_of_le this.1 hple.1, lt_of_lt_of_le this.2 hple.2⟩
        · have := ih _ _ e he
          exact ⟨lt_of_lt_of_le this.1 hple.1, lt_of_lt_of_le this.2 hple.2⟩
      · have := ih _ _ e he
        exact ⟨lt_of_lt_of_le this.1 hple.1, lt_of_lt_of_le this.2 hple.2⟩

theorem dtwBacktrack_pairwise (L : List Str) (T : List TransWord) (θ : ℚ) :
    ∀ fuel i j,
      (dtwBacktrack L T θ fuel i j).Pairwise
        (fun a b => b.1 < a.1 ∧ b.2.1 < a.2.1) := by
  intro fuel
  induction fuel with
  | zero => intro i j; simp [dtwBacktrack]
  | succ fuel ih =>
    intro i j
    simp only [dtwBacktrack]
    split
    · simp
    · split
      · rename_i hdiag
        split
        · refine List.Pairwise.cons ?_ ?_
          · intro b hb
            have := dtwBacktrack_lt L T θ fuel _ _ b hb
            constructor
            · calc b.1 < (dtwPath L T i j).1 := this.1
                _ = i - 1 := hdiag.1
            · calc b.2.1 < (dtwPath L T i j).2 := this.2
                _ = j - 1 := hdiag.2
          · exact ih _ _
        · exact ih _ _
      · exact ih _ _

theorem dtwBacktrack_sim_ge (L : List Str) (T : List TransWord) (θ : ℚ) :
    ∀ fuel i j, ∀ e ∈ dtwBacktrack L T θ fuel i j, θ ≤ e.2.2 := by
  intro fuel
  induction fuel with
  | zero => intro i j e he; simp [dtwBacktrack] at he
  | succ fuel ih =>
    intro i j e he
    simp only [dtwBacktrack] at he
    split at he
    · simp at he
    · split at he
      · split at he
        · rcases List.mem_cons.mp he with rfl | he'
          · assumption
          · exact ih _ _ e he'
        · exact ih _ _ e he
      · exact ih _ _ e he

/-! Claim C5 -/

/-- C5, counterexample: `word_similarity "dont" "don't"` is not `0.9`; the
substring rule is not the one that fires on this pair. -/
theorem word_similarity_dont_cex :
    ¬ word_similarity "dont".toList "don\x27t".toList = 9/10 := by
  with_unfolding_all decide

/-- C5, amended: normalization strips the apostrophe, so `"dont"` and
`"don't"` normalize to the same string and the exact-match rule returns `1.0`
(the substring rule is never reached). -/
theorem word_similarity_dont_exact :
    word_similarity "dont".toList "don\x27t".toList = 1 ∧
      normalizeWord "don\x27t".toList = normalizeWord "dont".toList := by
  constructor
  · with_unfolding_all decide
  · decide

/-! Claim C6 -/

/-- C6, counterexample: the default similarity threshold of `dtw_align` is not
`0.4`; on a pair with similarity exactly `0.4` the default call returns no
match while an explicit `0.4` threshold returns it. -/
theorem dtw_align_default_cex :
    dtw_align ["abcde".toList] [⟨"abxyz".toList, 0, 1, 1⟩] = [] ∧
      dtw_align ["abcde".toList] [⟨"abxyz".toList, 0, 1, 1⟩] (2/5) = [(0, 0, 2/5)] ∧
      ¬ dtw_align_default_threshold = 2/5 := by
  refine ⟨?_, ?_, ?_⟩ <;> with_unfolding_all decide

/-- C6, amended: every triple returned by `dtw_align` has similarity at least
the `similarity_threshold` parameter, and the default value of that parameter
is `0.5` (the `align_lyrics` call site passes `0.4` explicitly). -/
theorem dtw_align_sim_ge_threshold :
    (∀ (L : List Str) (T : List TransWord) (θ : ℚ) (e : ℕ × ℕ × ℚ),
        e ∈ dtw_align L T θ → θ ≤ e.2.2) ∧
      dtw_align_default_threshold = 1/2 := by
  constructor
  · intro L T θ e he
    simp only [dtw_align] at he
    split at he
    · simp at he
    · exact dtwBacktrack_sim_ge L T θ _ _ _ e (List.mem_reverse.mp he)
  · rfl

/-- C6, witness for `dtw_align_sim_ge_threshold` at a concrete input. -/
theorem dtw_align_sim_ge_threshold_witness :
    (0, 0, (1 : ℚ)) ∈ dtw_align ["cat".toList] [⟨"cat".toList, 0, 1, 1⟩] (2/5) ∧
      (2 : ℚ)/5 ≤ (0, 0, (1 : ℚ)).2.2 := by
  have hmem : (0, 0, (1 : ℚ)) ∈ dtw_align ["cat".toList] [⟨"cat".toList, 0, 1, 1⟩] (2/5) := by
    with_unfolding_all decide
  exact ⟨hmem, dtw_align_sim_ge_threshold.1 _ _ _ _ hmem⟩

/-! Claim C7 -/

/-- C7: in the match list returned by `dtw_align`, both the lyric indices and
the transcribed indices are strictly increasing in output order. -/
theorem dtw_align_strict_mono (L : List Str) (T : List TransWord) (θ : ℚ) :
    (dtw_align L T θ).Pairwise (fun a b => a.1 < b.1 ∧ a.2.1 < b.2.1) := by
  simp only [dtw_align]
  split
  · simp
  · exact List.pairwise_reverse.mpr (dtwBacktrack_pairwise L T θ _ _ _)

/-! Claim C9 -/

/-- C9: the alignment algorithms are total functions with deterministic
degenerate results: `dtw_align` returns `[]` when either word list is empty;
`segment_based_alignment` distributes lines evenly when there are no segments
and returns `[]` for no lines; `_post_process_timing` is defined on every
input and returns one line per input line; `word_similarity` returns `0` when
either argument is empty or normalizes to the empty string. -/
theorem alignment_degenerate_total :
    (∀ (T : List TransWord) (θ : ℚ), dtw_align [] T θ = []) ∧
      (∀ (L : List Str) (θ : ℚ), dtw_align L [] θ = []) ∧
      (∀ (lines : List Str) (d : ℚ),
        segment_based_alignment lines [] d =
          (List.range lines.length).map
            (fun i => ((i, (i : ℚ) * (d / ((max lines.length 1 : ℕ) : ℚ)),
              ((i : ℚ) + 1) * (d / ((max lines.length 1 : ℕ) : ℚ))) : ℕ × ℚ × ℚ))) ∧
      (∀ (segments : List Segment) (d : ℚ),
        segment_based_alignment [] segments d = []) ∧
      (∀ (lines : List TimedLine) (d : ℚ),
        (_post_process_timing lines d).length = lines.length) ∧
      (∀ w : Str, word_similarity [] w = 0) ∧
      (∀ w : Str, word_similarity w [] = 0) ∧
      (∀ w1 w2 : Str, normalizeWord w1 = [] ∨ normalizeWord w2 = [] →
        word_similarity w1 w2 = 0) := by
  refine ⟨?_, ?_, ?_, ?_, ?_, ?_, ?_, ?_⟩
  · intro T θ; simp [dtw_align]
  · intro L θ; simp [dtw_align]
  · intro lines d; simp [segment_based_alignment]
  · intro segments d
    unfold segment_based_alignment
    split <;> simp
  · intro lines d; simp [_post_process_timing]
  · intro w; simp [word_similarity]
  · intro w; simp [word_similarity]
  · intro w1 w2 h
    unfold word_similarity
    split
    · rfl
    · rw [if_pos h]

/-- C9, witness for the conditional part of `alignment_degenerate_total` at a
concrete input whose words normalize to the empty string. -/
theorem alignment_degenerate_total_witness :
    (normalizeWord "!!".toList = [] ∨ normalizeWord "x".toList = []) ∧
      word_similarity "!!".toList "x".toList = 0 := by
  have h : normalizeWord "!!".toList = [] ∨ normalizeWord "x".toList = [] := by decide
  exact ⟨h, alignment_degenerate_total.2.2.2.2.2.2.2 _ _ h⟩

/-! Lemmas about the repair pass -/

theorem cleanupStep_word (d : ℚ) (pe : Option ℚ) (w : TimedWord) :
    (cleanupStep d pe w).word = w.word := rfl

theorem cleanupStep_conf (d : ℚ) (pe : Option ℚ) (w : TimedWord) :
    (cleanupStep d pe w).confidence = w.confidence := rfl

theorem cleanupStep_sound (d : ℚ) (pe : Option ℚ) (w : TimedWord) :
    (cleanupStep d pe w).start < (cleanupStep d pe w).end_ ∧
      (cleanupStep d pe w).end_ - (cleanupStep d pe w).start ≤ 3/2 := by
  cases pe <;> (unfold cleanupStep; dsimp only) <;> split_ifs <;>
    constructor <;> linarith

theorem cleanupStep_start_ge (d : ℚ) (p : ℚ) (w : TimedWord) :
    p ≤ (cleanupStep d (some p) w).start := by
  unfold cleanupStep
  dsimp only
  split_ifs <;> linarith

theorem cleanupStep_nonneg (d : ℚ) (pe : Option ℚ) (w : TimedWord)
    (h : ∀ p, pe = some p → 0 ≤ p) :
    0 ≤ (cleanupStep d pe w).start ∧ 0 ≤ (cleanupStep d pe w).end_ := by
  have h0 : (0 : ℚ) ≤ max 0 (min w.start (d - 1/10)) := le_max_left _ _
  have h1 : (0 : ℚ) ≤ max 0 (min w.end_ d) := le_max_left _ _
  cases pe with
  | none => unfold cleanupStep; dsimp only; split_ifs <;> constructor <;> linarith
  | some p =>
    have hp : (0 : ℚ) ≤ p := h p rfl
    unfold cleanupStep; dsimp only; split_ifs <;> constructor <;> linarith

theorem cleanupStep_fixed (d : ℚ) (pe : Option ℚ) (w : TimedWord)
    (h0 : 0 ≤ w.start) (h1 : w.start ≤ d - 1/10) (h2 : w.end_ ≤ d)
    (h3 : w.start < w.end_) (h4 : w.end_ - w.start ≤ 3/2)
    (hpe : ∀ p, pe = some p → p ≤ w.start) :
    cleanupStep d pe w = w := by
  have hs1 : max 0 (min w.start (d - 1/10)) = w.start := by
    rw [min_eq_left h1, max_eq_right h0]
  have he1 : max 0 (min w.end_ d) = w.end_ := by
    rw [min_eq_left h2, max_eq_right (le_of_lt (lt_of_le_of_lt h0 h3))]
  cases pe with
  | none =>
    unfold cleanupStep
    dsimp only
    rw [hs1, he1]
    split_ifs <;> first | rfl | (exfalso; linarith)
  | some p =>
    have hp : p ≤ w.start := hpe p rfl
    unfold cleanupStep
    dsimp only
    rw [hs1, he1]
    split_ifs <;> first | rfl | (exfalso; linarith)

theorem cleanupWords_length (d : ℚ) :
    ∀ (ws : List TimedWord) (pe : Option ℚ),
      (cleanupWords d pe ws).length = ws.length := by
  intro ws
  induction ws with
  | nil => intro pe; rfl
  | cons w ws ih => intro pe; simp [cleanupWords, ih]

theorem cleanupWords_map_word (d : ℚ) :
    ∀ (ws : List TimedWord) (pe : Option ℚ),
      (cleanupWords d pe ws).map TimedWord.word = ws.map TimedWord.word := by
  intro ws
  induction ws with
  | nil => intro pe; rfl
  | cons w ws ih => intro pe; simp [cleanupWords, ih, cleanupStep_word]

theorem cleanupWords_conf (d : ℚ) :
    ∀ (ws : List TimedWord) (pe : Option ℚ) (i : ℕ),
      ((cleanupWords d pe ws).getD i default).confidence =
        ((ws.getD i default)).confidence := by
  intro ws
  induction ws with
  | nil => intro pe i; rfl
  | cons w ws ih =>
    intro pe i
    cases i with
    | zero => simp [cleanupWords, cleanupStep_conf]
    | succ i => simp only [cleanupWords, List.getD_cons_succ]; exact ih _ i

theorem cleanupWords_forall_sound (d : ℚ) :
    ∀ (ws : List TimedWord) (pe : Option ℚ), ∀ w' ∈ cleanupWords d pe ws,
      w'.start < w'.end_ ∧ w'.end_ - w'.start ≤ 3/2 := by
  intro ws
  induction ws with
  | nil => intro pe w' h; simp [cleanupWords] at h
  | cons w ws ih =>
    intro pe w' h
    rcases List.mem_cons.mp h with rfl | h'
    · exact cleanupStep_sound d pe w
    · exact ih _ w' h'

theorem cleanupWords_head_start (d : ℚ) (ws : List TimedWord) (p : ℚ) :
    ∀ hd ∈ (cleanupWords d (some p) ws).head?, p ≤ hd.start := by
  cases ws with
  | nil => intro hd h; simp [cleanupWords] at h
  | cons w ws =>
    intro hd h
    simp only [cleanupWords, List.head?_cons, Option.mem_def, Option.some.injEq] at h
    rw [← h]
    exact cleanupStep_start_ge d p w

theorem cleanupWords_chain (d : ℚ) :
    ∀ (ws : List TimedWord) (pe : Option ℚ),
      (cleanupWords d pe ws).Chain' (fun a b => a.end_ ≤ b.start) := by
  intro ws
  induction ws with
  | nil => intro pe; simp [cleanupWords]
  | cons w ws ih =>
    intro pe
    simp only [cleanupWords]
    refine List.chain'_cons'.mpr ⟨?_, ih _⟩
    intro hd hhd
    exact cleanupWords_head_start d ws _ hd hhd

theorem cleanupWords_nonneg (d : ℚ) :
    ∀ (ws : List TimedWord) (pe : Option ℚ), (∀ p, pe = some p → 0 ≤ p) →
      ∀ w' ∈ cleanupWords d pe ws, 0 ≤ w'.start ∧ 0 ≤ w'.end_ := by
  intro ws
  induction ws with
  | nil => intro pe _ w' h; simp [cleanupWords] at h
  | cons w ws ih =>
    intro pe hpe w' h
    rcases List.mem_cons.mp h with rfl | h'
    · exact cleanupStep_nonneg d pe w hpe
    · refine ih _ ?_ w' h'
      intro p hp
      rw [Option.some.injEq] at hp
      rw [← hp]
      exact (cleanupStep_nonneg d pe w hpe).2

theorem cleanupWords_fixed (d : ℚ) :
    ∀ (ws : List TimedWord) (pe : Option ℚ),
      (∀ w ∈ ws, 0 ≤ w.start ∧ w.start ≤ d - 1/10 ∧ w.end_ ≤ d ∧
        w.start < w.end_ ∧ w.end_ - w.start ≤ 3/2) →
      ws.Chain' (fun a b => a.end_ ≤ b.start) →
      (∀ p, pe = some p → ∀ hd ∈ ws.head?, p ≤ hd.start) →
      cleanupWords d pe ws = ws := by
  intro ws
  induction ws with
  | nil => intro pe _ _ _; rfl
  | cons w ws ih =>
    intro pe hall hchain hpe
    have hw := hall w (List.mem_cons_self w ws)
    have hfix : cleanupStep d pe w = w := by
      refine cleanupStep_fixed d pe w hw.1 hw.2.1 hw.2.2.1 hw.2.2.2.1 hw.2.2.2.2 ?_
      intro p hp
      exact hpe p hp w (by simp)
    simp only [cleanupWords, hfix, List.cons.injEq, true_and]
    refine ih _ (fun x hx => hall x (List.mem_cons_of_mem w hx))
      (List.Chain'.tail hchain) ?_
    intro p hp hd hhd
    rw [Option.some.injEq] at hp
    rcases List.chain'_cons'.mp hchain with ⟨hrel, _⟩
    rw [← hp]
    exact hrel hd hhd

theorem reestimateWords_length :
    ∀ (ws : List TimedWord) (t : ℚ),
      (reestimateWords t ws).length = ws.length := by
  intro ws
  induction ws with
  | nil => intro t; rfl
  | cons w ws ih => intro t; simp [reestimateWords, ih]

theorem reestimateWords_map_word :
    ∀ (ws : List TimedWord) (t : ℚ),
      (reestimateWords t ws).map TimedWord.word = ws.map TimedWord.word := by
  intro ws
  induction ws with
  | nil => intro t; rfl
  | cons w ws ih => intro t; simp [reestimateWords, ih]

theorem reestimateWords_conf :
    ∀ (ws : List TimedWord) (t : ℚ) (i : ℕ),
      ((reestimateWords t ws).getD i default).confidence ≤
        ((ws.getD i default)).confidence := by
  intro ws
  induction ws with
  | nil => intro t i; simp [reestimateWords]
  | cons w ws ih =>
    intro t i
    cases i with
    | zero => simp [reestimateWords, min_le_left]
    | succ i => simp only [reestimateWords, List.getD_cons_succ]; exact ih _ i

theorem reestimateWords_forall_sound :
    ∀ (ws : List TimedWord) (t : ℚ), ∀ w' ∈ reestimateWords t ws,
      w'.start < w'.end_ ∧ w'.end_ - w'.start ≤ 3/2 := by
  intro ws
  induction ws with
  | nil => intro t w' h; simp [reestimateWords] at h
  | cons w ws ih =>
    intro t w' h
    rcases List.mem_cons.mp h with rfl | h'
    · refine ⟨?_, ?_⟩ <;> (dsimp only; linarith)
    · exact ih _ w' h'

theorem reestimateWords_head_start (ws : List TimedWord) (t : ℚ) :
    ∀ hd ∈ (reestimateWords t ws).head?, hd.start = t := by
  cases ws with
  | nil => intro hd h; simp [reestimateWords] at h
  | cons w ws =>
    intro hd h
    simp only [reestimateWords, List.head?_cons, Option.mem_def,
      Option.some.injEq] at h
    rw [← h]

theorem reestimateWords_chain :
    ∀ (ws : List TimedWord) (t : ℚ),
      (reestimateWords t ws).Chain' (fun a b => a.end_ ≤ b.start) := by
  intro ws
  induction ws with
  | nil => intro t; simp [reestimateWords]
  | cons w ws ih =>
    intro t
    simp only [reestimateWords]
    refine List.chain'_cons'.mpr ⟨?_, ih _⟩
    intro hd hhd
    rw [reestimateWords_head_start ws _ hd hhd]
    simp
    linarith

theorem processLine_text (d : ℚ) (l : TimedLine) :
    (processLine d l).text = l.text := by
  rcases hw : l.words with _ | ⟨w0, rest⟩ <;> simp [processLine, hw]

theorem processLine_map_word (d : ℚ) (l : TimedLine) :
    (processLine d l).words.map TimedWord.word = l.words.map TimedWord.word := by
  rcases hw : l.words with _ | ⟨w0, rest⟩
  · simp [processLine, hw]
  · simp only [processLine, hw]
    split
    · exact reestimateWords_map_word (w0 :: rest) w0.start
    · exact cleanupWords_map_word d (w0 :: rest) none

theorem processLine_length (d : ℚ) (l : TimedLine) :
    (processLine d l).words.length = l.words.length := by
  rcases hw : l.words with _ | ⟨w0, rest⟩
  · simp [processLine, hw]
  · simp only [processLine, hw]
    split
    · exact reestimateWords_length (w0 :: rest) w0.start
    · exact cleanupWords_length d (w0 :: rest) none

theorem processLine_conf (d : ℚ) (l : TimedLine) (j : ℕ) :
    (((processLine d l).words.getD j default)).confidence ≤
      ((l.words.getD j default)).confidence := by
  rcases hw : l.words with _ | ⟨w0, rest⟩
  · simp [processLine, hw]
  · simp only [processLine, hw]
    split
    · exact reestimateWords_conf (w0 :: rest) w0.start j
    · exact le_of_eq (cleanupWords_conf d (w0 :: rest) none j)

theorem processLine_forall_sound (d : ℚ) (l : TimedLine) :
    ∀ w' ∈ (processLine d l).words,
      w'.start < w'.end_ ∧ w'.end_ - w'.start ≤ 3/2 := by
  rcases hw : l.words with _ | ⟨w0, rest⟩
  · simp [processLine, hw]
  · simp only [processLine, hw]
    split
    · exact reestimateWords_forall_sound (w0 :: rest) w0.start
    · exact cleanupWords_forall_sound d (w0 :: rest) none

theorem processLine_chain (d : ℚ) (l : TimedLine) :
    (processLine d l).words.Chain' (fun a b => a.end_ ≤ b.start) := by
  rcases hw : l.words with _ | ⟨w0, rest⟩
  · simp [processLine, hw]
  · simp only [processLine, hw]
    split
    · exact reestimateWords_chain (w0 :: rest) w0.start
    · exact cleanupWords_chain d (w0 :: rest) none

theorem processLine_default (d : ℚ) :
    processLine d default = default := rfl

theorem post_process_getD (lines : List TimedLine) (d : ℚ) (i : ℕ) :
    (_post_process_timing lines d).getD i default =
      processLine d (lines.getD i default) := by
  unfold _post_process_timing
  rcases h : lines[i]? with _ | l0
  · rw [List.getD_eq_getElem?_getD, List.getElem?_map, h,
      List.getD_eq_getElem?_getD, h]
    rfl
  · rw [List.getD_eq_getElem?_getD, List.getElem?_map, h,
      List.getD_eq_getElem?_getD, h]
    rfl

theorem processLine_fixed (d : ℚ) (l : TimedLine)
    (hb : ∀ w ∈ (processLine d l).words,
      0 ≤ w.start ∧ w.start ≤ d - 1/10 ∧ w.end_ ≤ d)
    (hnb : lineSeemsBroken (processLine d l) = false) :
    processLine d (processLine d l) = processLine d l := by
  rcases hw : l.words with _ | ⟨w0, rest⟩
  · have h1 : processLine d l = l := by simp [processLine, hw]
    rw [h1]
    exact h1
  · have hne : (processLine d l).words ≠ [] := by
      have := processLine_length d l
      rw [hw, List.length_cons] at this
      exact List.ne_nil_of_length_pos (by omega)
    obtain ⟨a, t, hat⟩ := List.exists_cons_of_ne_nil hne
    have hfix : cleanupWords d none (processLine d l).words =
        (processLine d l).words := by
      refine cleanupWords_fixed d (processLine d l).words none ?_
        (processLine_chain d l) ?_
      · intro w hwmem
        have h1 := hb w hwmem
        have h2 := processLine_forall_sound d l w hwmem
        exact ⟨h1.1, h1.2.1, h1.2.2, h2.1, h2.2⟩
      · intro p hp
        exact Option.noConfusion hp
    have hstart : (processLine d l).start =
        (((processLine d l).words.headD default)).start := by
      simp only [processLine, hw]
    have hend : (processLine d l).end_ =
        (((processLine d l).words.getLastD default)).end_ := by
      simp only [processLine, hw]
    conv_lhs => rw [processLine, hat]
    simp only
    rw [← hat, hnb]
    simp only [Bool.false_eq_true, if_false, hfix]
    conv_rhs => rw [show processLine d l =
      ⟨(processLine d l).text, (processLine d l).start, (processLine d l).end_,
        (processLine d l).words⟩ from rfl]
    rw [hstart, hend]

theorem chain'_start_of_chain'_end (ws : List TimedWord)
    (hc : ws.Chain' (fun a b => a.end_ ≤ b.start))
    (hs : ∀ w ∈ ws, w.start < w.end_) :
    ws.Chain' (fun a b : TimedWord => a.start ≤ b.start) := by
  induction ws with
  | nil => simp
  | cons w ws ih =>
    rcases List.chain'_cons'.mp hc with ⟨hrel, hc'⟩
    refine List.chain'_cons'.mpr
      ⟨?_, ih hc' (fun x hx => hs x (List.mem_cons_of_mem w hx))⟩
    intro hd hhd
    have h1 := hs w (List.mem_cons_self w ws)
    have h2 := hrel hd hhd
    linarith

/-! Claim C2 -/

/-- C2: after `_post_process_timing`, every returned line has non-decreasing
word start times, and every word's end strictly exceeds its start. -/
theorem post_process_word_order (lines : List TimedLine) (duration : ℚ)
    (l : TimedLine) (hl : l ∈ _post_process_timing lines duration) :
    l.words.Chain' (fun a b => a.start ≤ b.start) ∧
      ∀ w ∈ l.words, w.start < w.end_ := by
  rcases List.mem_map.mp hl with ⟨l0, _, rfl⟩
  refine ⟨chain'_start_of_chain'_end _ (processLine_chain duration l0)
    (fun w hw => (processLine_forall_sound duration l0 w hw).1), ?_⟩
  intro w hw
  exact (processLine_forall_sound duration l0 w hw).1

/-- C2, witness for `post_process_word_order` at a concrete input. -/
theorem post_process_word_order_witness :
    (⟨"a".toList, 0, 7/20, [⟨"a".toList, 0, 7/20, 2/5⟩]⟩ : TimedLine) ∈
        _post_process_timing [⟨"a".toList, 0, 1, [⟨"a".toList, 0, 1, 1⟩]⟩] 10 ∧
      (⟨"a".toList, 0, 7/20, 2/5⟩ : TimedWord) ∈
        (⟨"a".toList, 0, 7/20, [⟨"a".toList, 0, 7/20, 2/5⟩]⟩ : TimedLine).words ∧
      (⟨"a".toList, 0, 7/20, 2/5⟩ : TimedWord).start <
        (⟨"a".toList, 0, 7/20, 2/5⟩ : TimedWord).end_ := by
  have hmem : (⟨"a".toList, 0, 7/20, [⟨"a".toList, 0, 7/20, 2/5⟩]⟩ : TimedLine) ∈
      _post_process_timing [⟨"a".toList, 0, 1, [⟨"a".toList, 0, 1, 1⟩]⟩] 10 := by
    with_unfolding_all decide
  have hw : (⟨"a".toList, 0, 7/20, 2/5⟩ : TimedWord) ∈
      (⟨"a".toList, 0, 7/20, [⟨"a".toList, 0, 7/20, 2/5⟩]⟩ : TimedLine).words := by
    with_unfolding_all decide
  exact ⟨hmem, hw,
    (post_process_word_order _ 10 _ hmem).2 _ hw⟩

/-! Claim C3 -/

/-- C3, counterexample: a broken line's re-estimated words are never clamped,
so a word's end can exceed the audio duration: one word timed `[0, 1]` with
duration `0.2` is re-estimated to end `0.35 > 0.2`. -/
theorem post_process_exceeds_duration_cex :
    (1 : ℚ)/5 <
      (((_post_process_timing [⟨"w".toList, 0, 1, [⟨"w".toList, 0, 1, 1⟩]⟩]
          (1/5)).getD 0 default).words.getD 0 default).end_ := by
  with_unfolding_all decide

/-- C3, amended: after `_post_process_timing`, words of a line that is not
classified broken have non-negative start and end times (broken lines are
re-estimated without clamping, and even cleanup can push times past the
duration, so the upper bound of the original claim does not hold). -/
theorem post_process_nonneg_of_not_broken (lines : List TimedLine)
    (duration : ℚ) (i : ℕ)
    (h : lineSeemsBroken (lines.getD i default) = false) :
    ∀ w ∈ ((_post_process_timing lines duration).getD i default).words,
      0 ≤ w.start ∧ 0 ≤ w.end_ := by
  rw [post_process_getD]
  set l0 := lines.getD i default with hl0
  rcases hw : l0.words with _ | ⟨w0, rest⟩
  · simp [processLine, hw]
  · simp only [processLine, hw, h, Bool.false_eq_true, if_false]
    intro w hwmem
    refine cleanupWords_nonneg duration (w0 :: rest) none ?_ w hwmem
    intro p hp
    exact Option.noConfusion hp

/-- C3, witness for `post_process_nonneg_of_not_broken` at a concrete input. -/
theorem post_process_nonneg_of_not_broken_witness :
    lineSeemsBroken (([⟨"a".toList, 0, 1/2, [⟨"a".toList, 0, 1/2, 1⟩]⟩] :
        List TimedLine).getD 0 default) = false ∧
      (⟨"a".toList, 0, 1/2, 1⟩ : TimedWord) ∈
        ((_post_process_timing [⟨"a".toList, 0, 1/2, [⟨"a".toList, 0, 1/2, 1⟩]⟩]
          1).getD 0 default).words ∧
      (0 : ℚ) ≤ (⟨"a".toList, 0, 1/2, 1⟩ : TimedWord).start ∧
      (0 : ℚ) ≤ (⟨"a".toList, 0, 1/2, 1⟩ : TimedWord).end_ := by
  have hb : lineSeemsBroken (([⟨"a".toList, 0, 1/2, [⟨"a".toList, 0, 1/2, 1⟩]⟩] :
      List TimedLine).getD 0 default) = false := by
    with_unfolding_all decide
  have hmem : (⟨"a".toList, 0, 1/2, 1⟩ : TimedWord) ∈
      ((_post_process_timing [⟨"a".toList, 0, 1/2, [⟨"a".toList, 0, 1/2, 1⟩]⟩]
        1).getD 0 default).words := by
    with_unfolding_all decide
  exact ⟨hb, hmem, post_process_nonneg_of_not_broken _ 1 0 hb _ hmem⟩

/-! Claim C10 -/

/-- C10: `_post_process_timing` is a pure timing repair: it preserves the
number and order of lines, every line's text, and the number, order and texts
of the words in each line; and no word's confidence ever increases. -/
theorem post_process_frame (lines : List TimedLine) (duration : ℚ) :
    (_post_process_timing lines duration).map
        (fun l => (l.text, l.words.map TimedWord.word)) =
      lines.map (fun l => (l.text, l.words.map TimedWord.word)) ∧
    ∀ i j,
      (((_post_process_timing lines duration).getD i default).words.getD j
        default).confidence ≤
        ((lines.getD i default).words.getD j default).confidence := by
  constructor
  · unfold _post_process_timing
    rw [List.map_map]
    apply List.map_congr_left
    intro l _
    simp only [Function.comp_apply]
    rw [processLine_text, processLine_map_word]
  · intro i j
    rw [post_process_getD]
    exact processLine_conf duration (lines.getD i default) j

/-! Claim C4 -/

/-- C4, counterexample: `_post_process_timing` is not idempotent. With
duration `0.411`, the words `[0, 0.3]` and `[0.29, 0.3]` are cleaned up to
`[0, 0.3]`, `[0.32, 0.52]`; on a second pass the clamp moves the second word's
start to `0.311` (`duration - 0.1`), which no longer precedes the previous
end, and its end to `0.411`, so the output changes. -/
theorem post_process_not_idempotent_cex :
    ¬ (_post_process_timing
        (_post_process_timing
          [⟨"a b".toList, 0, 3/10,
            [⟨"a".toList, 0, 3/10, 1⟩, ⟨"b".toList, 29/100, 3/10, 1⟩]⟩]
          (411/1000))
        (411/1000) =
      _post_process_timing
        [⟨"a b".toList, 0, 3/10,
          [⟨"a".toList, 0, 3/10, 1⟩, ⟨"b".toList, 29/100, 3/10, 1⟩]⟩]
        (411/1000)) := by
  with_unfolding_all decide

/-- C4, amended: the repair pass is idempotent on every input whose repaired
output is stable — every repaired word time lies within the clamp range
(start in `[0, duration - 0.1]`, end at most `duration`) and no repaired line
is classified broken on re-examination; without that condition a second pass
can change times. -/
theorem post_process_idempotent_cond (lines : List TimedLine) (duration : ℚ)
    (h : postRepairStable lines duration = true) :
    _post_process_timing (_post_process_timing lines duration) duration =
      _post_process_timing lines duration := by
  simp only [postRepairStable, List.all_eq_true, Bool.and_eq_true,
    Bool.not_eq_true', decide_eq_true_eq] at h
  have hfix : ∀ x ∈ _post_process_timing lines duration,
      processLine duration x = x := by
    intro x hx
    rcases List.mem_map.mp hx with ⟨l0, _, rfl⟩
    have hx' := h _ hx
    refine processLine_fixed duration l0 ?_ hx'.2
    intro w hw
    have := hx'.1 w hw
    exact ⟨this.1.1, this.1.2, this.2⟩
  show List.map (processLine duration) (_post_process_timing lines duration) =
    _post_process_timing lines duration
  rw [List.map_congr_left hfix]
  simp

/-- C4, witness for `post_process_idempotent_cond` at a concrete input. -/
theorem post_process_idempotent_cond_witness :
    postRepairStable [⟨"a".toList, 0, 3/10, [⟨"a".toList, 0, 3/10, 1⟩]⟩] 1 = true ∧
      _post_process_timing
          (_post_process_timing
            [⟨"a".toList, 0, 3/10, [⟨"a".toList, 0, 3/10, 1⟩]⟩] 1) 1 =
        _post_process_timing
          [⟨"a".toList, 0, 3/10, [⟨"a".toList, 0, 3/10, 1⟩]⟩] 1 := by
  have h : postRepairStable [⟨"a".toList, 0, 3/10, [⟨"a".toList, 0, 3/10, 1⟩]⟩] 1 =
      true := by
    with_unfolding_all decide
  exact ⟨h, post_process_idempotent_cond _ 1 h⟩

/-! Claim C8 -/

theorem segLineStep_timings_fst (lyrics_lines : List Str)
    (segments : List Segment) (d : ℚ) (st : SegAlignState) (i : ℕ) :
    ((segLineStep lyrics_lines segments d st i).timings).map (fun t => t.1) =
      st.timings.map (fun t => t.1) ++ [i] := by
  unfold segLineStep
  dsimp only
  split
  · split
    · simp
    · split <;> simp
  · split <;> simp

theorem segFold_timings_fst (lyrics_lines : List Str) (segments : List Segment)
    (d : ℚ) :
    ∀ (is : List ℕ) (st : SegAlignState),
      ((is.foldl (segLineStep lyrics_lines segments d) st).timings).map
        (fun t => t.1) = st.timings.map (fun t => t.1) ++ is := by
  intro is
  induction is with
  | nil => intro st; simp
  | cons i is ih =>
    intro st
    rw [List.foldl_cons, ih, segLineStep_timings_fst]
    simp

/-- C8, counterexample: with non-empty lines and segments whose start times
are non-decreasing, the anchors returned by `segment_based_alignment` need not
be non-decreasing in start time — line 0 can claim a later segment than
line 1, which then falls back to an earlier unused one. -/
theorem segment_alignment_nonmono_cex :
    (["bb".toList, "aa".toList] : List Str) ≠ [] ∧
      ([(⟨"aa".toList, 0, 1, []⟩ : Segment), ⟨"bb".toList, 10, 11, []⟩] :
        List Segment) ≠ [] ∧
      List.Chain' (fun a b : Segment => a.start ≤ b.start)
        [⟨"aa".toList, 0, 1, []⟩, ⟨"bb".toList, 10, 11, []⟩] ∧
      segment_based_alignment ["bb".toList, "aa".toList]
        [⟨"aa".toList, 0, 1, []⟩, ⟨"bb".toList, 10, 11, []⟩] 20 =
        [(0, 10, 11), (1, 0, 1)] ∧
      ¬ List.Chain' (· ≤ ·)
        ((segment_based_alignment ["bb".toList, "aa".toList]
          [⟨"aa".toList, 0, 1, []⟩, ⟨"bb".toList, 10, 11, []⟩] 20).map
          (fun t => t.2.1)) := by
  have heq : segment_based_alignment ["bb".toList, "aa".toList]
      [⟨"aa".toList, 0, 1, []⟩, ⟨"bb".toList, 10, 11, []⟩] 20 =
      [(0, 10, 11), (1, 0, 1)] := by
    with_unfolding_all decide
  refine ⟨by decide, by decide, ?_, heq, ?_⟩
  · simp only [List.chain'_cons, List.chain'_singleton, and_true]
    norm_num
  · rw [heq]
    simp only [List.map_cons, List.map_nil, List.chain'_cons,
      List.chain'_singleton, and_true]
    norm_num

/-- C8, amended: `segment_based_alignment` returns exactly one anchor per
lyric line, indexed in line order (for any inputs); monotonicity of the anchor
start times is not guaranteed, even for monotone segments. -/
theorem segment_alignment_one_anchor_per_line (lyrics_lines : List Str)
    (segments : List Segment) (audio_duration : ℚ) :
    (segment_based_alignment lyrics_lines segments audio_duration).map
      (fun t => t.1) = List.range lyrics_lines.length := by
  unfold segment_based_alignment
  split
  · rw [List.map_map]
    conv_rhs => rw [← List.map_id (List.range lyrics_lines.length)]
    apply List.map_congr_left
    intro a _
    rfl
  · rw [segFold_timings_fst]
    simp

/-! Claim C1 -/

theorem pySplit_eq_nil_iff : ∀ s : Str, pySplit s = [] ↔ ∀ c ∈ s, isSpace c = true := by
  intro s
  induction s with
  | nil => simp [pySplit]
  | cons c cs ih =>
    by_cases hc : isSpace c
    · simp [pySplit, hc, ih]
    · simp [pySplit, hc]

theorem pyStrip_has_nonspace (s : Str) (h : pyStrip s ≠ []) :
    ∃ c ∈ pyStrip s, ¬ isSpace c = true := by
  refine ⟨(pyStrip s).getLast h, List.getLast_mem h, ?_⟩
  unfold pyStrip at *
  exact List.rdropWhile_last_not _ _ h

theorem mem_lyricsLines_split_ne_nil (lyrics_text line : Str)
    (h : line ∈ lyricsLines lyrics_text) : pySplit line ≠ [] := by
  unfold lyricsLines at h
  rcases List.mem_filter.mp h with ⟨hmem, hpred⟩
  rcases List.mem_map.mp hmem with ⟨raw, _, rfl⟩
  have hne : pyStrip raw ≠ [] := by
    simp only [Bool.and_eq_true, Bool.not_eq_true'] at hpred
    intro hnil
    rw [hnil] at hpred
    simp at hpred
  intro hnil
  rcases pyStrip_has_nonspace raw hne with ⟨c, hc, hcs⟩
  exact hcs ((pySplit_eq_nil_iff _).mp hnil c hc)

theorem buildWords_map_word (lookup : ℕ × ℕ → Option (ℚ × ℚ × ℚ))
    (anchor_start anchor_end : ℚ) (total line_idx : ℕ) :
    ∀ (ws0 : List Str) (word_idx : ℕ) (pe : Option ℚ),
      (buildWords lookup anchor_start anchor_end total line_idx word_idx pe
        ws0).map TimedWord.word = ws0 := by
  intro ws0
  induction ws0 with
  | nil => intro word_idx pe; rfl
  | cons w ws ih =>
    intro word_idx pe
    simp only [buildWords]
    split <;> simp [ih]

theorem buildTimedLines_struct (lookup : ℕ × ℕ → Option (ℚ × ℚ × ℚ))
    (line_timings : List (ℕ × ℚ × ℚ)) (lines_count : ℕ) (audio_duration : ℚ) :
    ∀ ps : List (ℕ × Str), (∀ p ∈ ps, pySplit p.2 ≠ []) →
      (buildTimedLines lookup line_timings lines_count audio_duration ps).map
        (fun l => (l.text, l.words.map TimedWord.word)) =
        ps.map (fun p => (p.2, pySplit p.2)) := by
  intro ps
  induction ps with
  | nil => intro _; rfl
  | cons p ps ih =>
    intro hall
    have hne := hall p (List.mem_cons_self p ps)
    simp only [buildTimedLines]
    split
    · rename_i hempty
      exfalso
      rw [List.isEmpty_iff] at hempty
      have hmw := congrArg (List.map TimedWord.word) hempty
      rw [buildWords_map_word] at hmw
      simp at hmw
      exact hne hmw
    · rw [List.map_append, List.map_cons, List.map_nil]
      rw [ih (fun q hq => hall q (List.mem_cons_of_mem p hq))]
      simp only [List.cons_append, List.nil_append, List.map_cons]
      rw [buildWords_map_word]

theorem post_process_struct (lines : List TimedLine) (d : ℚ) :
    (_post_process_timing lines d).map
        (fun l => (l.text, l.words.map TimedWord.word)) =
      lines.map (fun l => (l.text, l.words.map TimedWord.word)) := by
  unfold _post_process_timing
  rw [List.map_map]
  apply List.map_congr_left
  intro l _
  simp only [Function.comp_apply]
  rw [processLine_text, processLine_map_word]

/-- C1: for every lyrics text and recognizer output, `align_lyrics` returns
exactly one `TimedLine` per stripped, non-empty, non-`'['` input line, in the
original order, with the original line text, and exactly one `TimedWord` per
whitespace-delimited word of that line whose text is the lyric word itself. -/
theorem align_lyrics_structure (lyrics_text : Str) (segments : List Segment)
    (audio_duration : ℚ) (title : Str) :
    (align_lyrics lyrics_text segments audio_duration title).lines.map
      (fun l => (l.text, l.words.map TimedWord.word)) =
      (lyricsLines lyrics_text).map (fun s => (s, pySplit s)) := by
  have hsplit : ∀ p ∈ (lyricsLines lyrics_text).enum, pySplit p.2 ≠ [] := by
    intro p hp
    have hmem : p.2 ∈ lyricsLines lyrics_text := by
      have := List.mem_map_of_mem Prod.snd hp
      rwa [List.enum_map_snd] at this
    exact mem_lyricsLines_split_ne_nil _ _ hmem
  unfold align_lyrics
  dsimp only
  rw [post_process_struct, buildTimedLines_struct _ _ _ _ _ hsplit]
  rw [show (fun p : ℕ × Str => (p.2, pySplit p.2)) =
    (fun s : Str => (s, pySplit s)) ∘ Prod.snd from rfl]
  rw [← List.map_map, List.enum_map_snd]
